import Mathlib

/-
Verification of the cascade-merge scheduler (`law/contrib/tasks/__init__.py`,
class `CascadeMerge`) against its natural-language specification.

The Python code is shallowly embedded: nested lists of leaf numbers become the
inductive type `NestedLeaf`, the tree-building `while` loop becomes a
fuel-indexed loop (with a lemma showing the fuel is sufficient), and functions
that may raise become `Except`/`Option` valued functions.
-/

set_option maxHeartbeats 1000000
set_option maxRecDepth 10000

/-- NestedLeaf models the values held by `nested_leaves` in
`CascadeMerge._build_cascade_trees`: either a raw leaf number (a Python `int`)
or a list produced by a chunking round. -/
inductive NestedLeaf where
  | leaf (i : Nat) : NestedLeaf
  | node (children : List NestedLeaf) : NestedLeaf

/-- Structural-recursion engine for `iterChunks`, indexed by fuel (one unit
per produced chunk); `iterChunks_cons` recovers the intended recursion. -/
def iterChunksF (k : Nat) : Nat → List α → List (List α)
  | 0, _ => []
  | _ + 1, [] => []
  | fuel + 1, x :: xs => (x :: xs.take (k - 1)) :: iterChunksF k fuel (xs.drop (k - 1))

/-- Modelled from the spec: `iter_chunks` from `law.util` is not under `src/`;
the spec says each grouping step partitions the current sequence into
consecutive chunks of size at most `k`, the last chunk possibly shorter. -/
def iterChunks (k : Nat) (l : List α) : List (List α) :=
  iterChunksF k l.length l

/-- One round of the tree-building loop: chunk the current sequence and wrap
each chunk in a nested list (`nested_leaves = list(iter_chunks(nested_leaves,
self.merge_factor))`). -/
def cascadeStep (k : Nat) (xs : List NestedLeaf) : List NestedLeaf :=
  (iterChunks k xs).map NestedLeaf.node

/-- Fuel-indexed version of the `while len(nested_leaves) > 1` loop in
`_build_cascade_trees`; `buildLoop_length_le_one` shows that the fuel used by
`buildNested` is enough for the loop to reach its fixpoint when `k ≥ 2`. -/
def buildLoop (k : Nat) : Nat → List NestedLeaf → List NestedLeaf
  | 0, xs => xs
  | fuel + 1, xs => if xs.length ≤ 1 then xs else buildLoop k fuel (cascadeStep k xs)

/-- The nested grouping structure built for one tree with `n` leaves and merge
factor `k`: start from `list(range(n_leaves))` and chunk until length ≤ 1. -/
def buildNested (n k : Nat) : List NestedLeaf :=
  buildLoop k n ((List.range n).map NestedLeaf.leaf)

mutual

/-- The helper `nodify(obj, node)` of `_build_cascade_trees` for a non-`None`
`node` argument: a leaf number contributes nothing; a list records its own
path and then recurses into its children with the child index appended. -/
def nodify : NestedLeaf → List Nat → List (List Nat)
  | NestedLeaf.leaf _, _ => []
  | NestedLeaf.node cs, p => p :: nodifyFrom cs p 0

/-- The enumeration loop inside `nodify`: process children of `p` starting at
child index `i`, each child `c` recursing with path `p + (i,)`. -/
def nodifyFrom : List NestedLeaf → List Nat → Nat → List (List Nat)
  | [], _, _ => []
  | c :: cs, p, i => nodify c (p ++ [i]) ++ nodifyFrom cs p (i + 1)

end

/-- The top-level call `nodify(nested_leaves)` (with `node=None`): the root
list itself is not recorded; child `i` is processed with path `(i,)`. -/
def nodifyTop (xs : List NestedLeaf) : List (List Nat) :=
  nodifyFrom xs [] 0

/-- All node paths of the cascade tree for `n` leaves and merge factor `k`, in
discovery order (the order in which `nodify` yields them). -/
def treePaths (n k : Nat) : List (List Nat) :=
  nodifyTop (buildNested n k)

/-- The tree dict of `_build_cascade_trees` maps each depth to the nodes with
`depth = len(node) - 1`, preserving discovery order; this is layer `d`. -/
def cascadeTreeLayer (n k d : Nat) : List (List Nat) :=
  (treePaths n k).filter (fun p => p.length - 1 = d)

/-- The maximal depth present in the tree (`max(tree.keys())` in `is_leaf`),
taken as `0` for an empty tree (where the Python code would raise). -/
def maxTreeDepth (n k : Nat) : Nat :=
  ((treePaths n k).map (fun p => p.length - 1)).foldl max 0

/-- The leaf-merge layer: the nodes at the maximal depth, in discovery order. -/
def leafLayer (n k : Nat) : List (List Nat) :=
  cascadeTreeLayer n k (maxTreeDepth n k)

/-- Structural-recursion engine for `decDigits`, indexed by fuel (one unit per
digit beyond the last); `decDigits_eq` recovers the intended recursion. -/
def decDigitsF : Nat → Nat → List Nat
  | 0, n => [n % 10]
  | fuel + 1, n => if n < 10 then [n] else decDigitsF fuel (n / 10) ++ [n % 10]

/-- Decimal digits of a natural number, most significant first: the digits of
Python's `str(v)` for a non-negative `int`. -/
def decDigits (n : Nat) : List Nat :=
  decDigitsF n n

/-- The digit sequence of `"".join(str(v) for v in node)`: each tuple entry
contributes its decimal digits. -/
def pathStrDigits (node : List Nat) : List Nat :=
  (node.map decDigits).flatten

/-- Python's `int(s, base)` on a string of decimal-digit characters: fails
(`ValueError`) when the string is empty or some digit is not below the base,
otherwise returns the positional value. -/
def intInBase (base : Nat) (ds : List Nat) : Option Nat :=
  if ds ≠ [] ∧ ds.all (· < base) then
    some (ds.foldl (fun a d => a * base + d) 0)
  else
    none

/-- The leaf-range computation of `CascadeMerge.requires` for a leaf-merge
node (lines 255-259): `value = int("".join(str(v) for v in node), k)`,
`start = offset + k * value`, `end = min(start + k, n_cascade_leaves)`.
`nTotal` is the global `n_cascade_leaves`, `offset` the sum of the leaf counts
of the preceding trees. -/
def leafRange (k nTotal offset : Nat) (node : List Nat) : Option (Nat × Nat) :=
  (intInBase k (pathStrDigits node)).map (fun value =>
    let startBranch := offset + k * value
    (startBranch, min (startBranch + k) nTotal))

/-- The per-tree leaf counts of `_build_cascade_trees`:
`leaves_per_tree = n_trees * [n // n_trees]`, then the first `n % n_trees`
entries are incremented by one. -/
def leavesPerTree (n T : Nat) : List Nat :=
  (List.range (n % T)).foldl (fun l i => l.set i (l.getD i 0 + 1))
    (List.replicate T (n / T))

/-- A tree's leaf-index offset, `sum(self.leaves_per_tree[:self.cascade_tree])`
in `CascadeMerge.requires`. -/
def treeOffset (lpt : List Nat) (tree : Nat) : Nat :=
  (lpt.take tree).sum

/-- The sentinel `NO_INT` of `n_cascade_leaves` is modelled by `none`: when the
parameter is unset the leaf count is taken from the traced workflow inputs. -/
def determineNLeaves (declared : Option Nat) (nUpstream : Nat) : Nat :=
  declared.getD nUpstream

/-- The whole of `_build_cascade_trees`: determine the leaf count, split it
over the trees, and build one tree (its discovery-ordered path list) per tree.
The `Except` result records that the Python method can only complete normally:
it contains no consistency check and never raises on its own. -/
def buildCascadeTrees (declared : Option Nat) (nUpstream T k : Nat) :
    Except (List Char) (List Nat × List (List (List Nat))) :=
  let n := determineNLeaves declared nUpstream
  Except.ok (leavesPerTree n T,
    (leavesPerTree n T).map (fun m => nodifyTop (buildNested m k)))

/-- The child-branch enumeration of `CascadeMerge.requires` for a non-leaf
node: `[i for i, n in enumerate(tree[self.depth + 1]) if n[:-1] == node]`. -/
def childBranches (layer : List (List Nat)) (node : List Nat) : List Nat :=
  ((layer.enum).filter (fun x => x.2.dropLast = node)).map (fun x => x.1)

/-- The non-leaf requirement dict of `CascadeMerge.requires`:
`{b: self.req(self, branch=b, depth=self.depth + 1) for b in branches}`, each
required task identified by its `(depth, branch)` coordinates. -/
def requiresNonLeaf (layer : List (List Nat)) (node : List Nat) (depth : Nat) :
    List (Nat × Nat × Nat) :=
  (childBranches layer node).map (fun b => (b, depth + 1, b))

/-- Following the spec's words (refinement reference): `children_of(node, tree,
depth)` returns, in discovery order, every node at `depth+1` whose path, with
its last element dropped, equals `node`. -/
def children_of (node : List Nat) (layer : List (List Nat)) : List (List Nat) :=
  layer.filter (fun c => c.dropLast = node)

/-- Following the spec's words (refinement reference): the positional value of
a node path read as digits in base `k`, `Σ node[i] · k^(len(node)-1-i)`. -/
def specPathValue (k : Nat) (node : List Nat) : Nat :=
  ∑ i ∈ Finset.range node.length, node.getD i 0 * k ^ (node.length - 1 - i)

/-- Following the spec's words (refinement reference): `encode_leaf_range`
with `value = specPathValue`, `start = tree_offset + k·value`,
`end = min(start + k, total_leaves)` where `total_leaves` is the tree's total
leaf count. -/
def encode_leaf_range (node : List Nat) (k tree_offset total_leaves : Nat) :
    Nat × Nat :=
  let start := tree_offset + k * specPathValue k node
  (start, min (start + k) total_leaves)

/-- The removal loop at the end of `CascadeMerge.run`:
`for target in inputs: target.remove()`, acting on a store of artifacts. -/
def removeTargets (inputs store : List Nat) : List Nat :=
  inputs.foldl (fun s t => s.erase t) store

/-- The body of `CascadeMerge.run` after input flattening, as a transformer of
the artifact store: the merge runs first (`mergeOk = false` models the merge
operation raising, which propagates with the store untouched); on success the
consumed inputs are removed exactly when the node is a non-leaf node and
`keep_nodes` is unset. -/
def runNode (isLeaf keepNodes mergeOk : Bool) (inputs store : List Nat) :
    Except (List Nat) (List Nat) :=
  if mergeOk then
    Except.ok (if !isLeaf && !keepNodes then removeTargets inputs store else store)
  else
    Except.error store

/-- A file-system target (`law.target.file.FileSystemTarget`), reduced to the
two attributes `CascadeMerge` uses: its parent directory and its basename. -/
structure FileTarget where
  dir : List Char
  base : List Char
deriving DecidableEq

/-- A directory target, as returned by `parent`/`dir` and consumed by
`child(basename, "f")`. -/
structure DirTarget where
  path : List Char
deriving DecidableEq

/-- The possible shapes of `cascade_output()`: a single `FileSystemTarget`, a
`SiblingFileCollection` (targets sharing one directory), or some other
`TargetCollection`. The collection constructors carry `collBase`, Modelled
from the spec: the basename a collection output exposes for deriving non-root
node names (`law.target.collection` is not under `src/`). -/
inductive CascadeOutput where
  | single (t : FileTarget)
  | sibling (dir : List Char) (bases : List (List Char)) (collBase : List Char)
  | otherColl (targets : List FileTarget) (collBase : List Char)
deriving DecidableEq

/-- The `output.basename` read in `CascadeMerge.output` for non-root nodes. -/
def CascadeOutput.basename : CascadeOutput → List Char
  | .single t => t.base
  | .sibling _ _ cb => cb
  | .otherColl _ cb => cb

/-- Python's `os.path.splitext` on a basename: split off the extension at the
last dot, unless every character before that dot is itself a dot (leading dots
do not start an extension). -/
def splitExt (s : List Char) : List Char × List Char :=
  let r := s.reverse
  match r.dropWhile (fun c => c ≠ '.') with
  | [] => (s, [])
  | _ :: before =>
    if before.any (fun c => c ≠ '.') then
      (before.reverse, '.' :: (r.takeWhile (fun c => c ≠ '.')).reverse)
    else (s, [])

/-- Python's `str(v)` for a natural number, as a character list. -/
def natStr (n : Nat) : List Char :=
  (decDigits n).map Nat.digitChar

/-- The `node_format` template of `CascadeMerge`, instantiated as in `output`:
name, `.t` + tree, `.d` + depth, `.b` + branch, then the extension. -/
def nodeBasename (name ext : List Char) (tree depth branch : Nat) : List Char :=
  name ++ ('.' :: 't' :: natStr tree) ++ ('.' :: 'd' :: natStr depth)
    ++ ('.' :: 'b' :: natStr branch) ++ ext

/-- The `CascadeMerge.cascade_cache_directory` default: the output's parent
directory for a single target, the shared directory for a
`SiblingFileCollection`, and `NotImplementedError` otherwise. -/
def cacheDirectory (clsName : List Char) :
    CascadeOutput → Except (List Char) DirTarget
  | .single t => .ok ⟨t.dir⟩
  | .sibling d _ _ => .ok ⟨d⟩
  | .otherColl _ _ =>
    .error (clsName ++ ".cascade_cache_directory is not implemented".data)

/-- The body of `CascadeMerge.output`: the root node (`self.depth == 0`)
returns the cascade output itself (indexed by the tree number for a
collection); a non-root node returns a deterministically named child of the
cascade cache directory. -/
def outputTarget (out : CascadeOutput) (clsName : List Char)
    (depth cascadeDepth tree branch : Nat) : Except (List Char) FileTarget :=
  if depth = 0 then
    match out with
    | .single t => .ok t
    | .sibling d bs _ =>
      match bs[tree]? with
      | some b => .ok ⟨d, b⟩
      | none => .error "IndexError".data
    | .otherColl ts _ =>
      match ts[tree]? with
      | some t => .ok t
      | none => .error "IndexError".data
  else
    match cacheDirectory clsName out with
    | .ok d =>
      .ok ⟨d.path,
        nodeBasename (splitExt out.basename).1 (splitExt out.basename).2
          tree cascadeDepth branch⟩
    | .error e => .error e

/-- Proof-side helper: the nodes of a path list at depth `d`, i.e. the paths
of length `d + 1`. -/
def layerP (d : Nat) (paths : List (List Nat)) : List (List Nat) :=
  paths.filter (fun p => p.length = d + 1)

/-- Proof-side helper: the effect of one chunking round on a path's head,
splitting the old top index `t` into chunk index `t / k` and inner index
`t % k`. -/
def splitHeadDigit (k : Nat) : List Nat → List Nat
  | [] => []
  | t :: rest => t / k :: t % k :: rest

/-- Proof-side helper: the `r`-entry base-`k` representation of `t`, most
significant first, where the top entry absorbs any overflow (`t / k^(r-1)`). -/
def repDigits (k : Nat) : Nat → Nat → List Nat
  | 0, _ => []
  | r + 1, t => t / k ^ r :: repDigits k r (t % k ^ r)

/-- The number of first-round chunks, `⌈n / k⌉`: the number of leaf-merge
nodes of a tree with `n ≥ 2` leaves. -/
def chunkCount (n k : Nat) : Nat :=
  (n + k - 1) / k

/-- Proof-side helper: add `i` to the first entry of a path (the effect on
recorded paths of starting the child enumeration at index `i` instead of 0). -/
def headAdd (i : Nat) : List Nat → List Nat
  | [] => []
  | h :: t => (h + i) :: t

/-- Proof-side invariant of the tree-building loop after `r ≥ 1` chunking
rounds over `c` first-round chunks: the deepest layer (depth `r - 1`) of the
recorded paths is exactly the `r`-entry base-`k` representations of
`0, …, c-1` in order, and no deeper layer exists. -/
def goodLayers (k c r : Nat) (xs : List NestedLeaf) : Prop :=
  layerP (r - 1) (nodifyTop xs) = (List.range c).map (repDigits k r)
  ∧ ∀ d, r ≤ d → layerP d (nodifyTop xs) = []

theorem decDigits_of_lt {n : Nat} (h : n < 10) : decDigits n = [n] := by
  cases n with
  | zero => rfl
  | succ m => simp only [decDigits, decDigitsF, if_pos h]

theorem flatten_map_singleton (l : List Nat) :
    (l.map (fun v => [v])).flatten = l := by
  induction l with
  | nil => rfl
  | cons v l ih => simp [ih]

theorem foldl_horner_eq (k : Nat) (l : List Nat) :
    ∀ a : Nat, l.foldl (fun x d => x * k + d) a = a * k ^ l.length + specPathValue k l := by
  induction l with
  | nil => intro a; simp [specPathValue]
  | cons v l ih =>
    intro a
    have hsum : specPathValue k (v :: l) = v * k ^ l.length + specPathValue k l := by
      simp only [specPathValue, List.length_cons]
      rw [Finset.sum_range_succ']
      simp only [List.getD_cons_succ, List.getD_cons_zero, Nat.add_sub_cancel]
      have hc : ∀ i ∈ Finset.range l.length,
          l.getD i 0 * k ^ (l.length - (i + 1)) =
          l.getD i 0 * k ^ (l.length - 1 - i) := by
        intro i _
        congr 2
        omega
      rw [Finset.sum_congr rfl hc]
      have hz : l.length - 0 = l.length := by omega
      rw [hz]
      omega
    simp only [List.foldl_cons, ih, hsum, List.length_cons]
    ring

/-- Claim C10: with merge factor 2 and a (nonempty) node path whose entries
are all in {0, 1}, the implementation's conversion — joining the entries as a
decimal string and parsing it in base 2 — succeeds and equals the positional
value `Σ node[i] · 2^(len(node)-1-i)`. -/
theorem c10_string_parse_refines_positional (node : List Nat)
    (hne : node ≠ []) (hbits : ∀ v ∈ node, v ≤ 1) :
    intInBase 2 (pathStrDigits node) = some (specPathValue 2 node) := by
  have hdigits : pathStrDigits node = node := by
    unfold pathStrDigits
    have : node.map decDigits = node.map (fun v => [v]) := by
      apply List.map_congr_left
      intro v hv
      exact decDigits_of_lt (by have := hbits v hv; omega)
    rw [this, flatten_map_singleton]
  rw [hdigits]
  unfold intInBase
  rw [if_pos]
  · rw [foldl_horner_eq]
    simp
  · refine ⟨hne, ?_⟩
    rw [List.all_eq_true]
    intro v hv
    simpa using Nat.lt_of_le_of_lt (hbits v hv) (by omega)

theorem c10_witness :
    ([1, 0, 1] : List Nat) ≠ [] ∧
    intInBase 2 (pathStrDigits [1, 0, 1]) = some (specPathValue 2 [1, 0, 1]) :=
  ⟨by decide, c10_string_parse_refines_positional [1, 0, 1] (by decide) (by decide)⟩

theorem mem_removeTargets (inputs : List Nat) :
    ∀ store : List Nat, store.Nodup →
      ∀ x, x ∈ removeTargets inputs store ↔ x ∈ store ∧ x ∉ inputs := by
  induction inputs with
  | nil => intro store _ x; simp [removeTargets]
  | cons t ts ih =>
    intro store hnd x
    have hstep : removeTargets (t :: ts) store = removeTargets ts (store.erase t) := rfl
    rw [hstep, ih (store.erase t) (hnd.erase t)]
    rw [hnd.mem_erase_iff]
    constructor
    · rintro ⟨⟨hxt, hxs⟩, hxts⟩
      exact ⟨hxs, by simp [hxt, hxts]⟩
    · rintro ⟨hxs, hnot⟩
      simp only [List.mem_cons, not_or] at hnot
      exact ⟨⟨hnot.1, hxs⟩, hnot.2⟩

/-- Claim C6: `run` deletes the consumed inputs exactly when the node is a
non-leaf node and `keep_nodes` is unset; a leaf node's inputs survive; and a
raising merge leaves the store untouched, since removal runs strictly after
the merge. -/
theorem c6_run_removal_semantics (isLeaf keepNodes : Bool)
    (inputs store : List Nat) (hnd : store.Nodup) :
    runNode isLeaf keepNodes false inputs store = Except.error store
    ∧ runNode isLeaf keepNodes true inputs store =
        Except.ok (if !isLeaf && !keepNodes then removeTargets inputs store else store)
    ∧ (isLeaf = true → runNode isLeaf keepNodes true inputs store = Except.ok store)
    ∧ (∀ x, x ∈ removeTargets inputs store ↔ x ∈ store ∧ x ∉ inputs) := by
  refine ⟨rfl, rfl, ?_, mem_removeTargets inputs store hnd⟩
  intro h
  subst h
  rfl

theorem c6_witness :
    ([1, 2] : List Nat).Nodup ∧
    runNode false false false [2] [1, 2] = Except.error [1, 2] :=
  ⟨by decide, (c6_run_removal_semantics false false [2] [1, 2] (by decide)).1⟩

/-- Claim C9: the default `cascade_cache_directory` returns the output's
parent directory for a single file-system target, the shared directory for a
sibling file collection, and raises `NotImplementedError` for any other
output, a fatal configuration error. -/
theorem c9_cache_directory_cases (clsName dir collBase : List Char)
    (t : FileTarget) (bases : List (List Char)) (targets : List FileTarget) :
    cacheDirectory clsName (CascadeOutput.single t) = Except.ok ⟨t.dir⟩
    ∧ cacheDirectory clsName (CascadeOutput.sibling dir bases collBase) =
        Except.ok ⟨dir⟩
    ∧ cacheDirectory clsName (CascadeOutput.otherColl targets collBase) =
        Except.error
          (clsName ++ ".cascade_cache_directory is not implemented".data) :=
  ⟨rfl, rfl, rfl⟩

theorem enumFrom_filter_map_snd (node : List Nat) (l : List (List Nat)) :
    ∀ i : Nat,
      (((l.enumFrom i).filter (fun x => x.2.dropLast = node)).map
        (fun x => x.2)) = l.filter (fun c => c.dropLast = node) := by
  induction l with
  | nil => intro i; rfl
  | cons a l ih =>
    intro i
    by_cases h : a.dropLast = node <;>
      simp [List.enumFrom_cons, List.filter_cons, h, ih (i + 1)]

theorem enumFrom_getD (l : List (List Nat)) :
    ∀ i : Nat, ∀ x ∈ l.enumFrom i, ∃ j, x.1 = i + j ∧ l.getD j [] = x.2 := by
  induction l with
  | nil => intro i x hx; simp [List.enumFrom] at hx
  | cons a l ih =>
    intro i x hx
    rw [List.enumFrom_cons, List.mem_cons] at hx
    rcases hx with hx | hx
    · exact ⟨0, by simp [hx]⟩
    · obtain ⟨j, hj1, hj2⟩ := ih (i + 1) x hx
      exact ⟨j + 1, by omega, by simpa using hj2⟩


theorem childBranches_nodup (layer : List (List Nat)) (node : List Nat) :
    (childBranches layer node).Nodup := by
  have hsub : List.Sublist (childBranches layer node)
      (layer.enum.map (fun x => x.1)) := by
    unfold childBranches
    exact List.Sublist.map (fun x => x.1) (List.filter_sublist layer.enum)
  have hfst : layer.enum.map (fun x => x.1) = List.range layer.length := by
    have h := List.enum_map_fst layer
    simp only [Prod.fst] at h
    exact h
  have hnd : (layer.enum.map (fun x => x.1)).Nodup := by
    rw [hfst]; exact List.nodup_range layer.length
  exact hnd.sublist hsub

/-- Claim C5: for a non-leaf node, `requires` declares exactly one dependency
per child, keyed by the child's branch number (the keys are exactly the
enumeration indices, without repetition), and the selected children are
exactly the depth+1 nodes whose path with its last element dropped equals the
node's own path, in discovery order — the spec's `children_of`. -/
theorem c5_children_requirements (layer : List (List Nat)) (node : List Nat)
    (depth : Nat) :
    requiresNonLeaf layer node depth =
        (childBranches layer node).map (fun b => (b, depth + 1, b))
    ∧ (childBranches layer node).Nodup
    ∧ (childBranches layer node).map (fun b => layer.getD b []) =
        children_of node layer := by
  refine ⟨rfl, childBranches_nodup layer node, ?_⟩
  unfold childBranches children_of
  rw [List.map_map]
  have hmem : ∀ x ∈ (layer.enum.filter (fun x => x.2.dropLast = node)),
      ((fun b => layer.getD b []) ∘ fun x => x.1) x = x.2 := by
    intro x hx
    have hx' : x ∈ layer.enum := (List.filter_sublist layer.enum).subset hx
    obtain ⟨j, hj1, hj2⟩ := enumFrom_getD layer 0 x hx'
    simp only [Function.comp]
    rw [show x.1 = j by omega, hj2]
  rw [List.map_congr_left hmem]
  exact enumFrom_filter_map_snd node layer 0

/-- Claim C4, counterexample: building the forest with a declared leaf count
of 5 while the upstream leaf-producing requirement has only 3 outputs raises
no error at all — construction completes normally from the declared count, so
no leaf-count inconsistency is detected or reported. -/
theorem c4_counterexample_no_detection :
    buildCascadeTrees (some 5) 3 1 2 =
      Except.ok ([5], [[[0], [0, 0], [0, 0, 0], [0, 0, 1], [0, 1], [0, 1, 0]]]) := by
  rfl

/-- Claim C2: evaluation of the code at the failing input. With 5 total
leaves over 2 trees (merge factor 2), tree 0 has 3 leaves (offset 0) and its
second leaf-merge node is `(0, 1)`; `requires` computes the leaf range
`[2, 4)` because it clamps `end` to the global `n_cascade_leaves = 5`,
while the spec's `encode_leaf_range`, clamping to the tree's total leaf count
3, yields `[2, 3)` — so the code lets tree 0 consume leaf 3, which belongs to
tree 1. -/
theorem c2_clamp_uses_global_total :
    leavesPerTree 5 2 = [3, 2]
    ∧ treeOffset (leavesPerTree 5 2) 0 = 0
    ∧ treePaths 3 2 = [[0], [0, 0], [0, 1]]
    ∧ maxTreeDepth 3 2 = 1
    ∧ cascadeTreeLayer 3 2 1 = [[0, 0], [0, 1]]
    ∧ leafRange 2 5 0 [0, 1] = some (2, 4)
    ∧ encode_leaf_range [0, 1] 2 0 3 = (2, 3) := by
  decide

theorem foldl_bump_nil (is : List Nat) :
    is.foldl (fun l i => l.set i (l.getD i 0 + 1)) ([] : List Nat) = [] := by
  induction is with
  | nil => rfl
  | cons i is ih => simpa using ih

theorem range_map_const (T a : Nat) :
    (List.range T).map (fun _ => a) = List.replicate T a := by
  apply List.ext_getElem
  · simp
  · intro i h1 h2
    simp

theorem foldl_bump_replicate (a T : Nat) :
    ∀ m, m ≤ T →
      (List.range m).foldl (fun l i => l.set i (l.getD i 0 + 1))
          (List.replicate T a) =
        (List.range T).map (fun i => if i < m then a + 1 else a) := by
  intro m
  induction m with
  | zero =>
    intro _
    rw [List.range_zero, List.foldl_nil]
    have hfun : (fun i => if i < 0 then a + 1 else a) = (fun _ : Nat => a) := by
      funext i
      simp
    rw [hfun, range_map_const]
  | succ m ih =>
    intro hm
    rw [List.range_succ, List.foldl_append, ih (by omega), List.foldl_cons,
      List.foldl_nil]
    have hlen : ((List.range T).map
        (fun i => if i < m then a + 1 else a)).length = T := by simp
    have hgd : ((List.range T).map
        (fun i => if i < m then a + 1 else a)).getD m 0 = a := by
      rw [List.getD_eq_getElem?_getD, List.getElem?_eq_getElem (by omega)]
      simp
    rw [hgd]
    apply List.ext_getElem
    · simp
    · intro i h1 h2
      rw [List.getElem_set]
      by_cases him : m = i
      · subst him
        simp
      · simp only [List.getElem_map, List.getElem_range] at h2 ⊢
        have : i < m ↔ i < m + 1 := by omega
        simp [if_neg him, this]

theorem leavesPerTree_eq_map (n T : Nat) :
    leavesPerTree n T =
      (List.range T).map (fun i => if i < n % T then n / T + 1 else n / T) := by
  rcases Nat.eq_zero_or_pos T with hT | hT
  · subst hT
    unfold leavesPerTree
    rw [List.replicate_zero]
    have h := foldl_bump_nil (List.range (n % 0))
    rw [h, List.range_zero, List.map_nil]
  · exact foldl_bump_replicate (n / T) T (n % T) (Nat.le_of_lt (Nat.mod_lt n hT))

theorem sum_range_map_indicator (q : Nat) :
    ∀ T m : Nat,
      ((List.range T).map (fun i => if i < m then q + 1 else q)).sum =
        T * q + min m T := by
  intro T
  induction T with
  | zero => intro m; simp
  | succ T ih =>
    intro m
    rw [List.range_succ, List.map_append, List.sum_append, ih m]
    by_cases h : T < m
    · rw [List.map_singleton, List.sum_singleton, if_pos h]
      have h1 : min m T = T := by omega
      have h2 : min m (T + 1) = T + 1 := by omega
      rw [h1, h2]
      ring
    · rw [List.map_singleton, List.sum_singleton, if_neg h]
      have h1 : min m T = min m (T + 1) := by omega
      rw [h1]
      ring

theorem leavesPerTree_sum (n T : Nat) (hT : 1 ≤ T) :
    (leavesPerTree n T).sum = n := by
  rw [leavesPerTree_eq_map, sum_range_map_indicator]
  have h1 : min (n % T) T = n % T := by
    have := Nat.mod_lt n (show 0 < T by omega)
    omega
  have h2 := Nat.div_add_mod n T
  rw [h1]
  omega

theorem ceil_div_of_mod_ne_zero (n T : Nat) (hT : 1 ≤ T) (h : n % T ≠ 0) :
    (n + T - 1) / T = n / T + 1 := by
  have hmod := Nat.div_add_mod n T
  have hlt := Nat.mod_lt n (show 0 < T by omega)
  have hmul : T * (n / T + 1) = T * (n / T) + T := by ring
  have h2 : n + T - 1 = T * (n / T + 1) + (n % T - 1) := by omega
  rw [h2, Nat.mul_add_div (show 0 < T by omega),
    Nat.div_eq_of_lt (show n % T - 1 < T by omega)]

/-- Claim C7: the forest assigns `⌈n/T⌉` leaves to each of the first
`n mod T` trees and `⌊n/T⌋` to the rest; a tree's leaf-index offset is the
sum of the leaf counts of the preceding trees; concretely `n=7, T=2` gives
tree 0 four leaves at offset 0 and tree 1 three leaves at offset 4. -/
theorem c7_leaf_distribution (n T : Nat) (hT : 1 ≤ T) :
    (∀ i, i < T → (leavesPerTree n T).getD i 0 =
      if i < n % T then (n + T - 1) / T else n / T)
    ∧ (∀ t, treeOffset (leavesPerTree n T) t = ((leavesPerTree n T).take t).sum)
    ∧ (leavesPerTree n T).sum = n
    ∧ leavesPerTree 7 2 = [4, 3]
    ∧ treeOffset (leavesPerTree 7 2) 0 = 0
    ∧ treeOffset (leavesPerTree 7 2) 1 = 4 := by
  refine ⟨?_, fun t => rfl, leavesPerTree_sum n T hT, by decide, by decide, by decide⟩
  intro i hi
  rw [leavesPerTree_eq_map]
  rw [List.getD_eq_getElem?_getD, List.getElem?_eq_getElem (by simpa using hi)]
  simp only [List.getElem_map, List.getElem_range, Option.getD_some]
  by_cases h : i < n % T
  · rw [if_pos h, if_pos h, ceil_div_of_mod_ne_zero n T hT (by omega)]
  · rw [if_neg h, if_neg h]

theorem c7_witness : 1 ≤ 2 ∧ leavesPerTree 7 2 = [4, 3] :=
  ⟨by decide, (c7_leaf_distribution 7 2 (by decide)).2.2.2.1⟩

/-- Claim C4, amended: `_build_cascade_trees` performs no consistency check at
all — with a declared leaf count the upstream requirement is never even
queried (the result is independent of the number of upstream outputs), the
build always completes normally, and the computed per-tree distribution sums
exactly to the declared count, so nothing is silently truncated either. -/
theorem c4_no_leaf_count_check (nDecl nUp nUp2 T k : Nat) (hT : 1 ≤ T) :
    buildCascadeTrees (some nDecl) nUp T k = buildCascadeTrees (some nDecl) nUp2 T k
    ∧ buildCascadeTrees (some nDecl) nUp T k =
        Except.ok (leavesPerTree nDecl T,
          (leavesPerTree nDecl T).map (fun m => nodifyTop (buildNested m k)))
    ∧ (leavesPerTree nDecl T).sum = nDecl :=
  ⟨rfl, rfl, leavesPerTree_sum nDecl T hT⟩

theorem c4_witness :
    1 ≤ 1 ∧ (leavesPerTree 5 1).sum = 5 :=
  ⟨by decide, (c4_no_leaf_count_check 5 3 4 1 2 (by decide)).2.2⟩

theorem decDigitsF_lt_ten : ∀ fuel n : Nat, ∀ d ∈ decDigitsF fuel n, d < 10 := by
  intro fuel
  induction fuel with
  | zero =>
    intro n d hd
    simp only [decDigitsF, List.mem_singleton] at hd
    omega
  | succ fuel ih =>
    intro n d hd
    by_cases h : n < 10
    · simp only [decDigitsF, if_pos h, List.mem_singleton] at hd
      omega
    · simp only [decDigitsF, if_neg h, List.mem_append, List.mem_singleton] at hd
      rcases hd with hd | hd
      · exact ih (n / 10) d hd
      · omega

theorem decDigits_lt_ten (n : Nat) : ∀ d ∈ decDigits n, d < 10 :=
  decDigitsF_lt_ten n n

theorem decDigitsF_horner :
    ∀ fuel n : Nat, n ≤ fuel →
      (decDigitsF fuel n).foldl (fun a d => a * 10 + d) 0 = n := by
  intro fuel
  induction fuel with
  | zero =>
    intro n hn
    have h0 : n = 0 := by omega
    subst h0
    rfl
  | succ fuel ih =>
    intro n hn
    by_cases h : n < 10
    · simp [decDigitsF, if_pos h]
    · have hdiv : n / 10 ≤ fuel := by omega
      have hrec := ih (n / 10) hdiv
      simp only [decDigitsF, if_neg h, List.foldl_append, hrec, List.foldl_cons,
        List.foldl_nil]
      omega

theorem decDigits_horner (n : Nat) :
    (decDigits n).foldl (fun a d => a * 10 + d) 0 = n :=
  decDigitsF_horner n n (Nat.le_refl n)

theorem decDigits_injective {a b : Nat} (h : decDigits a = decDigits b) :
    a = b := by
  have ha := decDigits_horner a
  have hb := decDigits_horner b
  rw [h] at ha
  omega

theorem map_digitChar_injective :
    ∀ l1 l2 : List Nat, (∀ d ∈ l1, d < 10) → (∀ d ∈ l2, d < 10) →
      l1.map Nat.digitChar = l2.map Nat.digitChar → l1 = l2 := by
  intro l1
  induction l1 with
  | nil =>
    intro l2 _ _ h
    cases l2 with
    | nil => rfl
    | cons c l2 => simp at h
  | cons a l1 ih =>
    intro l2 h1 h2 h
    cases l2 with
    | nil => simp at h
    | cons b l2 =>
      simp only [List.map_cons, List.cons.injEq] at h
      have hab : a = b := by
        have ha : a < 10 := h1 a (by simp)
        have hb : b < 10 := h2 b (by simp)
        have hinj : ∀ x, x < 10 → ∀ y, y < 10 →
            Nat.digitChar x = Nat.digitChar y → x = y := by decide
        exact hinj a ha b hb h.1
      have htl := ih l2 (fun d hd => h1 d (by simp [hd]))
        (fun d hd => h2 d (by simp [hd])) h.2
      rw [hab, htl]

theorem natStr_injective {a b : Nat} (h : natStr a = natStr b) : a = b :=
  decDigits_injective
    (map_digitChar_injective (decDigits a) (decDigits b)
      (decDigits_lt_ten a) (decDigits_lt_ten b) h)

theorem dot_not_mem_natStr (n : Nat) : ('.' : Char) ∉ natStr n := by
  intro hmem
  unfold natStr at hmem
  rw [List.mem_map] at hmem
  obtain ⟨d, hd, hdc⟩ := hmem
  have hlt : d < 10 := decDigits_lt_ten n d hd
  have : ∀ x, x < 10 → Nat.digitChar x ≠ '.' := by decide
  exact this d hlt hdc

theorem append_dot_inj :
    ∀ (as as' bs bs' : List Char), ('.' : Char) ∉ as → ('.' : Char) ∉ as' →
      as ++ '.' :: bs = as' ++ '.' :: bs' → as = as' ∧ bs = bs' := by
  intro as
  induction as with
  | nil =>
    intro as' bs bs' _ h2 heq
    cases as' with
    | nil => simpa using heq
    | cons c rest =>
      simp only [List.nil_append, List.cons_append, List.cons.injEq] at heq
      exact absurd (heq.1 ▸ List.mem_cons_self c rest) h2
  | cons a atl ih =>
    intro as' bs bs' h1 h2 heq
    cases as' with
    | nil =>
      simp only [List.cons_append, List.nil_append, List.cons.injEq] at heq
      exact absurd (heq.1 ▸ List.mem_cons_self a atl) h1
    | cons a' atl' =>
      simp only [List.cons_append, List.cons.injEq] at heq
      have hrec := ih atl' bs bs'
        (fun hm => h1 (List.mem_cons_of_mem a hm))
        (fun hm => h2 (List.mem_cons_of_mem a' hm)) heq.2
      exact ⟨by rw [heq.1, hrec.1], hrec.2⟩

theorem nodeBasename_injective (name ext : List Char)
    (t1 d1 b1 t2 d2 b2 : Nat)
    (h : nodeBasename name ext t1 d1 b1 = nodeBasename name ext t2 d2 b2) :
    t1 = t2 ∧ d1 = d2 ∧ b1 = b2 := by
  unfold nodeBasename at h
  rw [List.append_assoc, List.append_assoc, List.append_assoc,
    List.append_assoc, List.append_assoc, List.append_assoc] at h
  have h1 := List.append_cancel_left h
  simp only [List.cons_append, List.cons.injEq, true_and] at h1
  obtain ⟨ht, h2⟩ := append_dot_inj (natStr t1) (natStr t2) _ _
    (dot_not_mem_natStr t1) (dot_not_mem_natStr t2) h1
  simp only [List.cons.injEq, true_and] at h2
  obtain ⟨hd, h3⟩ := append_dot_inj (natStr d1) (natStr d2) _ _
    (dot_not_mem_natStr d1) (dot_not_mem_natStr d2) h2
  simp only [List.cons.injEq, true_and] at h3
  have hb := List.append_cancel_right h3
  exact ⟨natStr_injective ht, natStr_injective hd, natStr_injective hb⟩

/-- Claim C8: output resolution is a pure function of the output declaration
and the coordinates (computing it twice gives identical results); the root
node (workflow depth 0) gets the externally declared output, indexed by the
tree number when the cascade output is a collection; a non-root node gets a
file in the cascade cache directory whose basename instantiates `node_format`
with the tree, depth and branch — and that naming is injective in
`(tree, depth, branch)`, so distinct coordinates never share a location. -/
theorem c8_output_resolution (clsName : List Char) :
    (∀ (out : CascadeOutput) (depth cd tree branch : Nat),
      outputTarget out clsName depth cd tree branch =
        outputTarget out clsName depth cd tree branch)
    ∧ (∀ (t : FileTarget) (cd tree branch : Nat),
      outputTarget (CascadeOutput.single t) clsName 0 cd tree branch =
        Except.ok t)
    ∧ (∀ (dir cb : List Char) (bases : List (List Char))
        (cd tree branch : Nat) (b : List Char), bases[tree]? = some b →
      outputTarget (CascadeOutput.sibling dir bases cb) clsName 0 cd tree branch =
        Except.ok ⟨dir, b⟩)
    ∧ (∀ (ts : List FileTarget) (cb : List Char)
        (cd tree branch : Nat) (t : FileTarget), ts[tree]? = some t →
      outputTarget (CascadeOutput.otherColl ts cb) clsName 0 cd tree branch =
        Except.ok t)
    ∧ (∀ (t : FileTarget) (dw cd tree branch : Nat),
      outputTarget (CascadeOutput.single t) clsName (dw + 1) cd tree branch =
        Except.ok ⟨t.dir,
          nodeBasename (splitExt t.base).1 (splitExt t.base).2 tree cd branch⟩)
    ∧ (∀ (dir cb : List Char) (bases : List (List Char))
        (dw cd tree branch : Nat),
      outputTarget (CascadeOutput.sibling dir bases cb) clsName (dw + 1) cd tree branch =
        Except.ok ⟨dir,
          nodeBasename (splitExt cb).1 (splitExt cb).2 tree cd branch⟩)
    ∧ (∀ (name ext : List Char) (t1 d1 b1 t2 d2 b2 : Nat),
      nodeBasename name ext t1 d1 b1 = nodeBasename name ext t2 d2 b2 →
        t1 = t2 ∧ d1 = d2 ∧ b1 = b2) := by
  refine ⟨fun _ _ _ _ _ => rfl, fun _ _ _ _ => rfl, ?_, ?_, ?_, ?_, ?_⟩
  · intro dir cb bases cd tree branch b hb
    simp [outputTarget, hb]
  · intro ts cb cd tree branch t ht
    simp [outputTarget, ht]
  · intro t dw cd tree branch
    rfl
  · intro dir cb bases dw cd tree branch
    rfl
  · intro name ext t1 d1 b1 t2 d2 b2
    exact nodeBasename_injective name ext t1 d1 b1 t2 d2 b2

theorem c8_witness :
    (["a".data][0]? = some "a".data)
    ∧ outputTarget (CascadeOutput.sibling "p".data ["a".data] "c.x".data)
        [] 0 0 0 0 = Except.ok ⟨"p".data, "a".data⟩
    ∧ (nodeBasename "n".data ".x".data 1 2 3 = nodeBasename "n".data ".x".data 1 2 3
        → (1 : Nat) = 1 ∧ (2 : Nat) = 2 ∧ (3 : Nat) = 3) :=
  ⟨by decide,
   (c8_output_resolution []).2.2.1 "p".data "c.x".data ["a".data] 0 0 0
     "a".data (by decide),
   fun h => (c8_output_resolution []).2.2.2.2.2.2 "n".data ".x".data 1 2 3 1 2 3 h⟩

theorem iterChunksF_congr {α : Type} (k : Nat) :
    ∀ fuel fuel' (l : List α), l.length ≤ fuel → l.length ≤ fuel' →
      iterChunksF k fuel l = iterChunksF k fuel' l := by
  intro fuel
  induction fuel with
  | zero =>
    intro fuel' l h1 _
    have : l = [] := by
      cases l with
      | nil => rfl
      | cons x xs => simp at h1
    subst this
    cases fuel' <;> rfl
  | succ fuel ih =>
    intro fuel' l h1 h2
    cases l with
    | nil => cases fuel' <;> rfl
    | cons x xs =>
      cases fuel' with
      | zero => simp at h2
      | succ fuel' =>
        simp only [iterChunksF, List.cons.injEq, true_and]
        apply ih
        · simp only [List.length_drop]
          simp only [List.length_cons] at h1
          omega
        · simp only [List.length_drop]
          simp only [List.length_cons] at h2
          omega

theorem iterChunks_cons {α : Type} (k : Nat) (x : α) (xs : List α) :
    iterChunks k (x :: xs) =
      (x :: xs.take (k - 1)) :: iterChunks k (xs.drop (k - 1)) := by
  show iterChunksF k (xs.length + 1) (x :: xs) = _
  simp only [iterChunksF, List.cons.injEq, true_and]
  apply iterChunksF_congr
  · simp only [List.length_drop]
    omega
  · exact Nat.le_refl _

theorem iterChunksF_flatten {α : Type} (k : Nat) :
    ∀ fuel (l : List α), l.length ≤ fuel → (iterChunksF k fuel l).flatten = l := by
  intro fuel
  induction fuel with
  | zero =>
    intro l h
    have : l = [] := by
      cases l with
      | nil => rfl
      | cons x xs => simp at h
    subst this
    rfl
  | succ fuel ih =>
    intro l h
    cases l with
    | nil => rfl
    | cons x xs =>
      simp only [iterChunksF, List.flatten_cons]
      rw [ih (xs.drop (k - 1)) (by simp only [List.length_drop]; simp only [List.length_cons] at h; omega)]
      simp [List.take_append_drop]

theorem iterChunks_flatten {α : Type} (k : Nat) (l : List α) :
    (iterChunks k l).flatten = l :=
  iterChunksF_flatten k l.length l (Nat.le_refl _)

theorem iterChunksF_length {α : Type} (k : Nat) (hk : 1 ≤ k) :
    ∀ fuel (l : List α), l.length ≤ fuel →
      (iterChunksF k fuel l).length = (l.length + k - 1) / k := by
  intro fuel
  induction fuel with
  | zero =>
    intro l h
    have hl : l = [] := by
      cases l with
      | nil => rfl
      | cons x xs => simp at h
    subst hl
    simp only [iterChunksF, List.length_nil]
    rw [Nat.div_eq_of_lt (by omega)]
  | succ fuel ih =>
    intro l h
    cases l with
    | nil =>
      simp only [iterChunksF, List.length_nil]
      rw [Nat.div_eq_of_lt (by omega)]
    | cons x xs =>
      simp only [iterChunksF, List.length_cons]
      rw [ih (xs.drop (k - 1)) (by simp only [List.length_drop]; simp only [List.length_cons] at h; omega)]
      simp only [List.length_drop]
      have hnum : xs.length - (k - 1) + k - 1 =
          if xs.length ≤ k - 1 then k - 1 else xs.length := by
        by_cases hc : xs.length ≤ k - 1
        · rw [if_pos hc]; omega
        · rw [if_neg hc]; omega
      rw [hnum]
      by_cases hc : xs.length ≤ k - 1
      · rw [if_pos hc, Nat.div_eq_of_lt (by omega)]
        have h2 : xs.length + 1 + k - 1 = xs.length + k := by omega
        rw [h2, Nat.add_div_right _ (by omega), Nat.div_eq_of_lt (by omega)]
      · rw [if_neg hc]
        have h2 : xs.length + 1 + k - 1 = xs.length + k := by omega
        rw [h2, Nat.add_div_right _ (by omega)]

theorem iterChunks_length {α : Type} (k : Nat) (hk : 1 ≤ k) (l : List α) :
    (iterChunks k l).length = (l.length + k - 1) / k :=
  iterChunksF_length k hk l.length l (Nat.le_refl _)

theorem iterChunksF_mem {α : Type} (k : Nat) (hk : 1 ≤ k) :
    ∀ fuel (l : List α) c, c ∈ iterChunksF k fuel l →
      c.length ≤ k ∧ c ≠ [] := by
  intro fuel
  induction fuel with
  | zero =>
    intro l c hc
    simp [iterChunksF] at hc
  | succ fuel ih =>
    intro l c hc
    cases l with
    | nil => simp [iterChunksF] at hc
    | cons x xs =>
      simp only [iterChunksF, List.mem_cons] at hc
      rcases hc with hc | hc
      · subst hc
        constructor
        · simp only [List.length_cons]
          have := List.length_take_le (k - 1) xs
          omega
        · simp
      · exact ih _ c hc

theorem iterChunks_mem {α : Type} (k : Nat) (hk : 1 ≤ k) (l : List α)
    (c : List α) (hc : c ∈ iterChunks k l) : c.length ≤ k ∧ c ≠ [] :=
  iterChunksF_mem k hk l.length l c hc

theorem iterChunks_mem_mem {α : Type} (k : Nat) (l : List α)
    (c : List α) (hc : c ∈ iterChunks k l) (e : α) (he : e ∈ c) : e ∈ l := by
  rw [← iterChunks_flatten k l]
  exact List.mem_flatten.mpr ⟨c, hc, he⟩

theorem nodifyFrom_nil (p : List Nat) (i : Nat) : nodifyFrom [] p i = [] := rfl

theorem nodifyFrom_cons (c : NestedLeaf) (cs : List NestedLeaf)
    (p : List Nat) (i : Nat) :
    nodifyFrom (c :: cs) p i = nodify c (p ++ [i]) ++ nodifyFrom cs p (i + 1) := rfl

mutual

theorem nodify_shift (c : NestedLeaf) (q : List Nat) :
    nodify c q = (nodify c []).map (fun s => q ++ s) := by
  match c with
  | NestedLeaf.leaf i => rfl
  | NestedLeaf.node cs =>
    simp only [nodify, List.map_cons, List.append_nil]
    rw [nodifyFrom_shift cs q 0]

theorem nodifyFrom_shift (cs : List NestedLeaf) (q : List Nat) (i : Nat) :
    nodifyFrom cs q i = (nodifyFrom cs [] i).map (fun s => q ++ s) := by
  match cs with
  | [] => rfl
  | c :: cs =>
    rw [nodifyFrom_cons, nodifyFrom_cons, List.map_append,
      nodify_shift c (q ++ [i]), nodify_shift c ([] ++ [i]),
      nodifyFrom_shift cs q (i + 1), List.map_map]
    have hfun : ((fun s => q ++ s) ∘ fun s => ([] ++ [i]) ++ s) =
        (fun s => (q ++ [i]) ++ s) := by
      funext s
      simp
    rw [hfun]

end

theorem nodifyFrom_append (ys : List NestedLeaf) :
    ∀ (zs : List NestedLeaf) (i : Nat),
      nodifyFrom (ys ++ zs) [] i =
        nodifyFrom ys [] i ++ nodifyFrom zs [] (i + ys.length) := by
  induction ys with
  | nil =>
    intro zs i
    simp [nodifyFrom_nil]
  | cons c cs ih =>
    intro zs i
    rw [List.cons_append, nodifyFrom_cons, nodifyFrom_cons, ih zs (i + 1),
      List.append_assoc]
    have hlen : i + 1 + cs.length = i + (c :: cs).length := by
      simp only [List.length_cons]
      omega
    rw [hlen]

theorem nodifyFrom_index (ys : List NestedLeaf) :
    ∀ (a j : Nat),
      nodifyFrom ys [] (a + j) = (nodifyFrom ys [] j).map (headAdd a) := by
  induction ys with
  | nil => intro a j; rfl
  | cons c cs ih =>
    intro a j
    rw [nodifyFrom_cons, nodifyFrom_cons, List.map_append]
    congr 1
    · rw [nodify_shift c ([] ++ [a + j]), nodify_shift c ([] ++ [j]),
        List.map_map]
      apply List.map_congr_left
      intro s _
      simp only [Function.comp, List.nil_append, List.singleton_append, headAdd]
      rw [Nat.add_comm j a]
    · have hidx : a + j + 1 = a + (j + 1) := by omega
      rw [hidx, ih a (j + 1)]

theorem nodifyFrom_head (ys : List NestedLeaf) :
    ∀ (j : Nat) (x : List Nat), x ∈ nodifyFrom ys [] j →
      ∃ h t, x = h :: t ∧ j ≤ h ∧ h < j + ys.length := by
  induction ys with
  | nil =>
    intro j x hx
    simp [nodifyFrom_nil] at hx
  | cons c cs ih =>
    intro j x hx
    rw [nodifyFrom_cons, List.mem_append] at hx
    rcases hx with hx | hx
    · rw [nodify_shift c ([] ++ [j]), List.mem_map] at hx
      obtain ⟨s, _, hs⟩ := hx
      exact ⟨j, s, by simp [← hs], Nat.le_refl j, by simp⟩
    · obtain ⟨h, t, hx1, hx2, hx3⟩ := ih (j + 1) x hx
      refine ⟨h, t, hx1, by omega, ?_⟩
      simp only [List.length_cons]
      omega

theorem layerP_append (d : Nat) (l1 l2 : List (List Nat)) :
    layerP d (l1 ++ l2) = layerP d l1 ++ layerP d l2 :=
  List.filter_append l1 l2

theorem layerP_map_cons (a d : Nat) (R : List (List Nat)) :
    layerP (d + 1) (R.map (fun s => a :: s)) =
      (layerP d R).map (fun s => a :: s) := by
  induction R with
  | nil => rfl
  | cons s R ih =>
    simp only [layerP, List.map_cons, List.filter_cons] at ih ⊢
    by_cases h : s.length = d + 1
    · have h2 : (a :: s).length = d + 1 + 1 := by simp [h]
      simp [h, h2, ih]
    · have h2 : ¬((a :: s).length = d + 1 + 1) := by
        simp only [List.length_cons]
        omega
      simp [h, h2, ih]

theorem headAdd_length (i : Nat) (s : List Nat) :
    (headAdd i s).length = s.length := by
  cases s <;> rfl

theorem layerP_map_headAdd (i d : Nat) (R : List (List Nat)) :
    layerP d (R.map (headAdd i)) = (layerP d R).map (headAdd i) := by
  induction R with
  | nil => rfl
  | cons s R ih =>
    simp only [layerP, List.map_cons, List.filter_cons, headAdd_length] at ih ⊢
    by_cases h : s.length = d + 1
    · simp [h, ih]
    · simp [h, ih]

theorem layerP_mem_length (d : Nat) (R : List (List Nat)) (x : List Nat)
    (hx : x ∈ layerP d R) : x.length = d + 1 := by
  unfold layerP at hx
  rw [List.mem_filter] at hx
  exact of_decide_eq_true hx.2

theorem layerP_subset (d : Nat) (R : List (List Nat)) (x : List Nat)
    (hx : x ∈ layerP d R) : x ∈ R :=
  (List.filter_sublist R).subset hx

theorem nodify_node (cs : List NestedLeaf) (p : List Nat) :
    nodify (NestedLeaf.node cs) p = p :: nodifyFrom cs p 0 := rfl

theorem chunk_layer (k : Nat) (hk : 1 ≤ k) (ys : List NestedLeaf) (a j d : Nat)
    (hbound : j + ys.length ≤ k) :
    layerP (d + 1) (nodifyFrom ys [a] j) =
      (layerP d (nodifyFrom ys [] (a * k + j))).map (splitHeadDigit k) := by
  rw [nodifyFrom_shift ys [a] j]
  have hcons : (fun s => [a] ++ s) = (fun s => (a : Nat) :: s) := by
    funext s
    rfl
  rw [hcons, layerP_map_cons a d (nodifyFrom ys [] j)]
  rw [nodifyFrom_index ys (a * k) j, layerP_map_headAdd, List.map_map]
  apply List.map_congr_left
  intro x hx
  have hxmem : x ∈ nodifyFrom ys [] j := layerP_subset d _ x hx
  obtain ⟨h, t, hxeq, hj, hlt⟩ := nodifyFrom_head ys j x hxmem
  subst hxeq
  simp only [Function.comp, headAdd, splitHeadDigit]
  have hhk : h < k := by omega
  rw [Nat.add_mul_div_right h a (show 0 < k by omega), Nat.div_eq_of_lt hhk,
    Nat.add_mul_mod_self_right, Nat.mod_eq_of_lt hhk]
  simp

theorem gsl (k : Nat) (hk : 1 ≤ k) (xs : List NestedLeaf) (a d : Nat) :
    layerP (d + 1) (nodifyFrom ((iterChunks k xs).map NestedLeaf.node) [] a) =
      (layerP d (nodifyFrom xs [] (a * k))).map (splitHeadDigit k) := by
  match xs with
  | [] =>
    show layerP (d + 1) (nodifyFrom ((iterChunksF k 0 []).map NestedLeaf.node) [] a) = _
    simp [iterChunksF, nodifyFrom_nil, layerP]
  | x :: xs' =>
    rw [iterChunks_cons, List.map_cons, nodifyFrom_cons, List.nil_append,
      nodify_node]
    have hchunklen : (x :: xs'.take (k - 1)).length ≤ k := by
      simp only [List.length_cons, List.length_take]
      omega
    have hsplit : layerP (d + 1)
        (([a] :: nodifyFrom (x :: xs'.take (k - 1)) [a] 0) ++
          nodifyFrom ((iterChunks k (xs'.drop (k - 1))).map NestedLeaf.node) [] (a + 1)) =
        layerP (d + 1) (nodifyFrom (x :: xs'.take (k - 1)) [a] 0) ++
          layerP (d + 1)
            (nodifyFrom ((iterChunks k (xs'.drop (k - 1))).map NestedLeaf.node) [] (a + 1)) := by
      rw [List.cons_append, layerP]
      rw [List.filter_cons]
      have hna : ¬(([a] : List Nat).length = d + 1 + 1) := by
        simp
      simp only [decide_eq_true_eq, if_neg hna]
      exact layerP_append (d + 1) _ _
    rw [hsplit]
    rw [chunk_layer k hk (x :: xs'.take (k - 1)) a 0 d (by omega)]
    rw [gsl k hk (xs'.drop (k - 1)) (a + 1) d]
    have hxs : x :: xs' = (x :: xs'.take (k - 1)) ++ xs'.drop (k - 1) := by
      rw [List.cons_append, List.take_append_drop]
    rw [hxs, nodifyFrom_append, layerP_append, List.map_append]
    congr 2
    by_cases hfull : k - 1 ≤ xs'.length
    · have hlen : a * k + (x :: xs'.take (k - 1)).length = (a + 1) * k := by
        simp only [List.length_cons, List.length_take]
        have : min (k - 1) xs'.length = k - 1 := by omega
        rw [this]
        have hk1 : 1 + (k - 1) = k := by omega
        ring_nf
        omega
      rw [hlen]
    · have hrest : xs'.drop (k - 1) = [] :=
        List.drop_eq_nil_of_le (by omega)
      rw [hrest, nodifyFrom_nil, nodifyFrom_nil]
termination_by xs.length
decreasing_by
  simp only [List.length_drop, List.length_cons]
  omega

theorem repDigits_succ (k r t : Nat) (hr : 1 ≤ r) :
    repDigits k (r + 1) t = splitHeadDigit k (repDigits k r t) := by
  obtain ⟨r', rfl⟩ : ∃ r', r = r' + 1 := ⟨r - 1, by omega⟩
  show repDigits k (r' + 1 + 1) t = splitHeadDigit k (repDigits k (r' + 1) t)
  simp only [repDigits, splitHeadDigit]
  congr 1
  · rw [Nat.div_div_eq_div_mul, ← pow_succ]
  · congr 1
    · rw [pow_succ, Nat.mod_mul_right_div_self]
    · congr 1
      exact Nat.mod_mod_of_dvd t (pow_dvd_pow k (by omega))

theorem repDigits_length (k : Nat) :
    ∀ r t, (repDigits k r t).length = r := by
  intro r
  induction r with
  | zero => intro t; rfl
  | succ r ih =>
    intro t
    simp only [repDigits, List.length_cons, ih]

theorem repDigits_lt (k : Nat) (hk : 1 ≤ k) :
    ∀ r t, t < k ^ r → ∀ e ∈ repDigits k r t, e < k := by
  intro r
  induction r with
  | zero =>
    intro t _ e he
    exact absurd he (List.not_mem_nil e)
  | succ r ih =>
    intro t ht e he
    simp only [repDigits, List.mem_cons] at he
    rcases he with he | he
    · subst he
      rw [Nat.div_lt_iff_lt_mul (Nat.pos_pow_of_pos r (by omega))]
      rw [pow_succ] at ht
      rw [Nat.mul_comm]
      omega
    · exact ih (t % k ^ r) (Nat.mod_lt t (Nat.pos_pow_of_pos r (by omega))) e he

theorem repDigits_horner (k : Nat) :
    ∀ r t a : Nat, (r = 0 → t = 0) →
      (repDigits k r t).foldl (fun x d => x * k + d) a = a * k ^ r + t := by
  intro r
  induction r with
  | zero =>
    intro t a h
    rw [h rfl]
    simp [repDigits]
  | succ r ih =>
    intro t a _
    simp only [repDigits, List.foldl_cons]
    rw [ih (t % k ^ r) (a * k + t / k ^ r) (fun h0 => by simp [h0, Nat.mod_one])]
    have hdm := Nat.div_add_mod t (k ^ r)
    rw [Nat.mul_comm] at hdm
    have hring : (a * k + t / k ^ r) * k ^ r + t % k ^ r =
        a * k ^ (r + 1) + (t / k ^ r * k ^ r + t % k ^ r) := by ring
    rw [hring, hdm]

theorem cascadeStep_nodes (k : Nat) (xs : List NestedLeaf) :
    ∀ e ∈ cascadeStep k xs, ∃ cs, e = NestedLeaf.node cs := by
  intro e he
  simp only [cascadeStep, List.mem_map] at he
  obtain ⟨c, _, hc⟩ := he
  exact ⟨c, hc.symm⟩

theorem buildLoop_nodes (k : Nat) :
    ∀ fuel (xs : List NestedLeaf),
      (∀ e ∈ xs, ∃ cs, e = NestedLeaf.node cs) →
      ∀ e ∈ buildLoop k fuel xs, ∃ cs, e = NestedLeaf.node cs := by
  intro fuel
  induction fuel with
  | zero => intro xs h; exact h
  | succ fuel ih =>
    intro xs h e he
    simp only [buildLoop] at he
    by_cases hlen : xs.length ≤ 1
    · rw [if_pos hlen] at he
      exact h e he
    · rw [if_neg hlen] at he
      exact ih (cascadeStep k xs) (cascadeStep_nodes k xs) e he

theorem cascadeStep_length (k : Nat) (hk : 1 ≤ k) (xs : List NestedLeaf) :
    (cascadeStep k xs).length = (xs.length + k - 1) / k := by
  simp only [cascadeStep, List.length_map]
  exact iterChunks_length k hk xs

theorem cascadeStep_length_lt (k : Nat) (hk : 2 ≤ k) (xs : List NestedLeaf)
    (hxs : 2 ≤ xs.length) : (cascadeStep k xs).length < xs.length := by
  rw [cascadeStep_length k (by omega) xs]
  rw [Nat.div_lt_iff_lt_mul (by omega)]
  obtain ⟨a, ha⟩ : ∃ a, xs.length = a + 2 := ⟨xs.length - 2, by omega⟩
  obtain ⟨b, hb⟩ : ∃ b, k = b + 2 := ⟨k - 2, by omega⟩
  rw [ha, hb]
  have hprod : (a + 2) * (b + 2) = a * b + 2 * a + 2 * b + 4 := by ring
  omega

theorem cascadeStep_length_pos (k : Nat) (hk : 1 ≤ k) (xs : List NestedLeaf)
    (hxs : 1 ≤ xs.length) : 1 ≤ (cascadeStep k xs).length := by
  rw [cascadeStep_length k hk xs]
  rw [Nat.one_le_div_iff (by omega)]
  omega

theorem cascadeStep_layers (k c r : Nat) (hk : 1 ≤ k) (hr : 1 ≤ r)
    (xs : List NestedLeaf) (h : goodLayers k c r xs) :
    goodLayers k c (r + 1) (cascadeStep k xs) := by
  obtain ⟨h1, h2⟩ := h
  constructor
  · have hr' : r + 1 - 1 = (r - 1) + 1 := by omega
    rw [hr']
    show layerP ((r - 1) + 1)
      (nodifyFrom ((iterChunks k xs).map NestedLeaf.node) [] 0) = _
    rw [gsl k hk xs 0 (r - 1), Nat.zero_mul]
    have hxs0 : nodifyFrom xs [] 0 = nodifyTop xs := rfl
    rw [hxs0, h1, List.map_map]
    apply List.map_congr_left
    intro t _
    simp only [Function.comp]
    exact (repDigits_succ k r t hr).symm
  · intro d hd
    obtain ⟨d', rfl⟩ : ∃ d', d = d' + 1 := ⟨d - 1, by omega⟩
    show layerP (d' + 1)
      (nodifyFrom ((iterChunks k xs).map NestedLeaf.node) [] 0) = []
    rw [gsl k hk xs 0 d', Nat.zero_mul]
    have hxs0 : nodifyFrom xs [] 0 = nodifyTop xs := rfl
    rw [hxs0, h2 d' (by omega)]
    rfl

theorem nodifyFrom_leaves (cs : List NestedLeaf)
    (h : ∀ c ∈ cs, ∃ m, c = NestedLeaf.leaf m) :
    ∀ (p : List Nat) (i : Nat), nodifyFrom cs p i = [] := by
  induction cs with
  | nil => intro p i; rfl
  | cons c cs ih =>
    intro p i
    obtain ⟨m, hm⟩ := h c (by simp)
    subst hm
    rw [nodifyFrom_cons]
    have htail := ih (fun c hc => h c (by simp [hc])) p (i + 1)
    rw [htail]
    rfl

theorem nodifyFrom_leaf_chunks (chunks : List (List NestedLeaf)) :
    ∀ i : Nat, (∀ ch ∈ chunks, ∀ e ∈ ch, ∃ m, e = NestedLeaf.leaf m) →
      nodifyFrom (chunks.map NestedLeaf.node) [] i =
        (List.range' i chunks.length).map (fun j => [j]) := by
  induction chunks with
  | nil => intro i _; rfl
  | cons ch chunks ih =>
    intro i hall
    rw [List.map_cons, nodifyFrom_cons, List.nil_append, nodify_node]
    rw [nodifyFrom_leaves ch (fun e he => hall ch (by simp) e he) [i] 0]
    rw [ih (i + 1) (fun c hc e he => hall c (by simp [hc]) e he)]
    simp only [List.length_cons, List.range'_succ, List.map_cons,
      List.singleton_append]

theorem base_goodLayers (n k : Nat) (hk : 1 ≤ k) :
    goodLayers k (chunkCount n k) 1
      (cascadeStep k ((List.range n).map NestedLeaf.leaf)) := by
  have hall : ∀ ch ∈ iterChunks k ((List.range n).map NestedLeaf.leaf),
      ∀ e ∈ ch, ∃ m, e = NestedLeaf.leaf m := by
    intro ch hch e he
    have hmem := iterChunks_mem_mem k _ ch hch e he
    rw [List.mem_map] at hmem
    obtain ⟨m, _, hm⟩ := hmem
    exact ⟨m, hm.symm⟩
  have hform : nodifyTop (cascadeStep k ((List.range n).map NestedLeaf.leaf)) =
      (List.range' 0
        (iterChunks k ((List.range n).map NestedLeaf.leaf)).length).map
        (fun j => [j]) :=
    nodifyFrom_leaf_chunks _ 0 hall
  have hlen : (iterChunks k ((List.range n).map NestedLeaf.leaf)).length =
      chunkCount n k := by
    rw [iterChunks_length k hk]
    simp [chunkCount]
  rw [goodLayers, hform, hlen]
  constructor
  · rw [← List.range_eq_range']
    have hfull : layerP 0 ((List.range (chunkCount n k)).map (fun j => [j])) =
        (List.range (chunkCount n k)).map (fun j => [j]) := by
      apply List.filter_eq_self.mpr
      intro x hx
      rw [List.mem_map] at hx
      obtain ⟨j, _, hj⟩ := hx
      subst hj
      simp
    rw [hfull]
    apply List.map_congr_left
    intro t _
    simp [repDigits]
  · intro d hd
    apply List.filter_eq_nil_iff.mpr
    intro x hx
    rw [List.mem_map] at hx
    obtain ⟨j, _, hj⟩ := hx
    subst hj
    simp only [List.length_singleton, decide_eq_true_eq]
    omega

theorem loop_goodLayers (k : Nat) (hk : 2 ≤ k) (c : Nat) :
    ∀ (fuel : Nat) (xs : List NestedLeaf) (r : Nat),
      goodLayers k c r xs → 1 ≤ r → 1 ≤ xs.length → xs.length ≤ fuel + 1 →
      ∃ r', 1 ≤ r' ∧ goodLayers k c r' (buildLoop k fuel xs) ∧
        (buildLoop k fuel xs).length = 1 := by
  intro fuel
  induction fuel with
  | zero =>
    intro xs r hg hr hx1 hx2
    exact ⟨r, hr, hg, by show xs.length = 1; omega⟩
  | succ fuel ih =>
    intro xs r hg hr hx1 hx2
    show ∃ r', 1 ≤ r' ∧
      goodLayers k c r' (if xs.length ≤ 1 then xs
        else buildLoop k fuel (cascadeStep k xs)) ∧
      (if xs.length ≤ 1 then xs
        else buildLoop k fuel (cascadeStep k xs)).length = 1
    by_cases hlen : xs.length ≤ 1
    · rw [if_pos hlen]
      exact ⟨r, hr, hg, by omega⟩
    · rw [if_neg hlen]
      apply ih (cascadeStep k xs) (r + 1)
        (cascadeStep_layers k c r (by omega) hr xs hg) (by omega)
        (cascadeStep_length_pos k (by omega) xs (by omega))
      have := cascadeStep_length_lt k hk xs (by omega)
      omega

theorem le_foldl_max (l : List Nat) : ∀ b : Nat, b ≤ l.foldl max b := by
  induction l with
  | nil => intro b; exact Nat.le_refl b
  | cons x l ih =>
    intro b
    exact Nat.le_trans (Nat.le_max_left b x) (ih (max b x))

theorem mem_le_foldl_max (l : List Nat) :
    ∀ (b x : Nat), x ∈ l → x ≤ l.foldl max b := by
  induction l with
  | nil => intro b x hx; exact absurd hx (List.not_mem_nil x)
  | cons y l ih =>
    intro b x hx
    rw [List.mem_cons] at hx
    rcases hx with hx | hx
    · subst hx
      exact Nat.le_trans (Nat.le_max_right b x) (le_foldl_max l (max b x))
    · exact ih (max b y) x hx

theorem foldl_max_le (l : List Nat) :
    ∀ (b m : Nat), b ≤ m → (∀ x ∈ l, x ≤ m) → l.foldl max b ≤ m := by
  induction l with
  | nil => intro b m hb _; exact hb
  | cons x l ih =>
    intro b m hb h
    exact ih (max b x) m (Nat.max_le.mpr ⟨hb, h x (by simp)⟩)
      (fun y hy => h y (by simp [hy]))

theorem buildNested_unfold (n k : Nat) (hn : 2 ≤ n) :
    buildNested n k =
      buildLoop k (n - 1) (cascadeStep k ((List.range n).map NestedLeaf.leaf)) := by
  unfold buildNested
  obtain ⟨m, rfl⟩ : ∃ m, n = m + 1 := ⟨n - 1, by omega⟩
  show buildLoop k (m + 1) _ = buildLoop k (m + 1 - 1) _
  have hlen : ¬(((List.range (m + 1)).map NestedLeaf.leaf).length ≤ 1) := by
    simp only [List.length_map, List.length_range]
    omega
  simp only [buildLoop, if_neg hlen]
  have hm : m + 1 - 1 = m := by omega
  rw [hm]

theorem tree_structure (n k : Nat) (hn : 2 ≤ n) (hk : 2 ≤ k) :
    ∃ r, 1 ≤ r
      ∧ layerP (r - 1) (treePaths n k) =
          (List.range (chunkCount n k)).map (repDigits k r)
      ∧ (∀ d, r ≤ d → layerP d (treePaths n k) = [])
      ∧ (buildNested n k).length = 1
      ∧ chunkCount n k ≤ k ^ (r - 1) := by
  have hbase := base_goodLayers n k (by omega)
  have hpos : 1 ≤ (cascadeStep k ((List.range n).map NestedLeaf.leaf)).length := by
    apply cascadeStep_length_pos k (by omega)
    simp only [List.length_map, List.length_range]
    omega
  have hfuel : (cascadeStep k ((List.range n).map NestedLeaf.leaf)).length ≤
      (n - 1 - 1) + 1 := by
    have hlt := cascadeStep_length_lt k hk ((List.range n).map NestedLeaf.leaf)
      (by simp only [List.length_map, List.length_range]; omega)
    simp only [List.length_map, List.length_range] at hlt
    omega
  obtain ⟨r, hr1, hgood, hlen1⟩ :=
    loop_goodLayers k hk (chunkCount n k) (n - 1)
      (cascadeStep k ((List.range n).map NestedLeaf.leaf)) 1 hbase
      (Nat.le_refl 1) hpos (by omega)
  rw [← buildNested_unfold n k hn] at hgood hlen1
  obtain ⟨hlayer, hempty⟩ := hgood
  have htp : treePaths n k = nodifyTop (buildNested n k) := rfl
  rw [← htp] at hlayer hempty
  have hc1 : 1 ≤ chunkCount n k := by
    unfold chunkCount
    rw [Nat.one_le_div_iff (by omega)]
    omega
  refine ⟨r, hr1, hlayer, hempty, hlen1, ?_⟩
  have hmem : repDigits k r (chunkCount n k - 1) ∈
      layerP (r - 1) (treePaths n k) := by
    rw [hlayer, List.mem_map]
    exact ⟨chunkCount n k - 1, by rw [List.mem_range]; omega, rfl⟩
  have hmem2 : repDigits k r (chunkCount n k - 1) ∈ treePaths n k :=
    layerP_subset _ _ _ hmem
  obtain ⟨h, t, heq, hle, hlt⟩ :=
    nodifyFrom_head (buildNested n k) 0 (repDigits k r (chunkCount n k - 1)) hmem2
  rw [hlen1] at hlt
  have hh0 : h = 0 := by omega
  obtain ⟨r', rfl⟩ : ∃ r', r = r' + 1 := ⟨r - 1, by omega⟩
  simp only [repDigits, List.cons.injEq] at heq
  have hdiv0 : (chunkCount n k - 1) / k ^ r' = 0 := by
    rw [heq.1, hh0]
  have hposp : 0 < k ^ r' := Nat.pos_pow_of_pos r' (by omega)
  have hltpow : chunkCount n k - 1 < k ^ r' := by
    by_contra hcon
    have h1 : 1 ≤ (chunkCount n k - 1) / k ^ r' :=
      (Nat.one_le_div_iff hposp).mpr (by omega)
    omega
  show chunkCount n k ≤ k ^ (r' + 1 - 1)
  have hidx : r' + 1 - 1 = r' := by omega
  rw [hidx]
  omega

theorem chunkCount_pos (n k : Nat) (hn : 1 ≤ n) (hk : 1 ≤ k) :
    1 ≤ chunkCount n k := by
  unfold chunkCount
  rw [Nat.one_le_div_iff (by omega)]
  omega

theorem leafLayer_repDigits (n k : Nat) (hn : 2 ≤ n) (hk : 2 ≤ k) :
    ∃ r, 1 ≤ r ∧ chunkCount n k ≤ k ^ (r - 1)
      ∧ maxTreeDepth n k = r - 1
      ∧ leafLayer n k = (List.range (chunkCount n k)).map (repDigits k r) := by
  obtain ⟨r, hr1, hlayer, hempty, hlen1, hbound⟩ := tree_structure n k hn hk
  have hnonempty : ∀ p ∈ treePaths n k, ∃ h t, p = h :: t := by
    intro p hp
    obtain ⟨h, t, he, _, _⟩ := nodifyFrom_head (buildNested n k) 0 p hp
    exact ⟨h, t, he⟩
  have hlenle : ∀ p ∈ treePaths n k, p.length ≤ r := by
    intro p hp
    by_contra hcon
    have hge : r ≤ p.length - 1 := by omega
    have hinlayer : p ∈ layerP (p.length - 1) (treePaths n k) := by
      unfold layerP
      rw [List.mem_filter]
      obtain ⟨h, t, he⟩ := hnonempty p hp
      refine ⟨hp, ?_⟩
      rw [decide_eq_true_eq]
      subst he
      simp only [List.length_cons]
      omega
    rw [hempty (p.length - 1) hge] at hinlayer
    exact absurd hinlayer (List.not_mem_nil p)
  have hc1 : 1 ≤ chunkCount n k := chunkCount_pos n k (by omega) (by omega)
  have hx : repDigits k r 0 ∈ layerP (r - 1) (treePaths n k) := by
    rw [hlayer, List.mem_map]
    exact ⟨0, by rw [List.mem_range]; omega, rfl⟩
  have hxT : repDigits k r 0 ∈ treePaths n k := layerP_subset _ _ _ hx
  have hmax : maxTreeDepth n k = r - 1 := by
    unfold maxTreeDepth
    apply Nat.le_antisymm
    · apply foldl_max_le _ 0 (r - 1) (by omega)
      intro x hxm
      rw [List.mem_map] at hxm
      obtain ⟨p, hp, rfl⟩ := hxm
      have := hlenle p hp
      omega
    · have hmem : (r - 1) ∈ (treePaths n k).map (fun p => p.length - 1) := by
        rw [List.mem_map]
        exact ⟨repDigits k r 0, hxT, by rw [repDigits_length]⟩
      exact mem_le_foldl_max _ 0 _ hmem
  have hLL : leafLayer n k = layerP (r - 1) (treePaths n k) := by
    unfold leafLayer cascadeTreeLayer layerP
    rw [hmax]
    apply List.filter_congr
    intro p hp
    obtain ⟨h, t, he⟩ := hnonempty p hp
    subst he
    simp only [List.length_cons]
    rw [decide_eq_decide]
    omega
  exact ⟨r, hr1, hbound, hmax, by rw [hLL, hlayer]⟩

theorem pathStrDigits_of_lt_ten (node : List Nat) (h : ∀ v ∈ node, v < 10) :
    pathStrDigits node = node := by
  unfold pathStrDigits
  have hmap : node.map decDigits = node.map (fun v => [v]) := by
    apply List.map_congr_left
    intro v hv
    exact decDigits_of_lt (h v hv)
  rw [hmap, flatten_map_singleton]

theorem leafRange_repDigits (k n r t : Nat) (hk2 : 2 ≤ k) (hk10 : k ≤ 10)
    (hr : 1 ≤ r) (ht : t < k ^ r) :
    leafRange k n 0 (repDigits k r t) = some (k * t, min (k * t + k) n) := by
  have hdig : ∀ e ∈ repDigits k r t, e < k := repDigits_lt k (by omega) r t ht
  have hps : pathStrDigits (repDigits k r t) = repDigits k r t :=
    pathStrDigits_of_lt_ten _ (fun v hv => by have := hdig v hv; omega)
  unfold leafRange intInBase
  rw [hps]
  have hne : repDigits k r t ≠ [] := by
    intro heq
    have hl := repDigits_length k r t
    rw [heq] at hl
    simp at hl
    omega
  have hall : (repDigits k r t).all (· < k) = true := by
    rw [List.all_eq_true]
    intro e he
    simpa using hdig e he
  rw [if_pos ⟨hne, hall⟩]
  rw [repDigits_horner k r t 0 (fun h0 => by omega)]
  simp

theorem range_append_range' (a b : Nat) :
    List.range a ++ List.range' a b = List.range (a + b) := by
  rw [List.range_eq_range', List.range_eq_range']
  have h := List.range'_append 0 a b 1
  rw [Nat.add_comm a b]
  simpa using h

theorem chunks_cover (n k : Nat) (hk : 1 ≤ k) :
    ∀ m, ((List.range m).map
        (fun j => List.range' (k * j) (min (k * j + k) n - k * j))).flatten =
      List.range (min (k * m) n) := by
  intro m
  induction m with
  | zero => simp
  | succ m ih =>
    rw [List.range_succ, List.map_append, List.flatten_append, ih]
    simp only [List.map_cons, List.map_nil, List.flatten_cons, List.flatten_nil,
      List.append_nil]
    have hms : k * (m + 1) = k * m + k := by ring
    by_cases hc : n ≤ k * m
    · have h1 : min (k * m) n = n := by omega
      have h2 : min (k * m + k) n = n := by omega
      have h3 : min (k * (m + 1)) n = n := by rw [hms]; omega
      have h4 : n - k * m = 0 := by omega
      rw [h1, h2, h3, h4]
      simp
    · have h1 : min (k * m) n = k * m := by omega
      rw [h1, range_append_range']
      congr 1
      rw [hms]
      omega

/-- Claim C3, amended theorem: for every `n ≥ 2` and merge factor `2 ≤ k ≤ 10`
with a single tree, the leaf ranges of the leaf-merge-depth nodes, in
discovery order, are the consecutive chunks `[k·j, min(k·j+k, n))` for
`j = 0, …, ⌈n/k⌉-1`, and those chunks concatenate (in order, without gaps or
overlaps) to exactly `[0, n)`; in particular `n=10, k=3` gives
`[0,3) [3,6) [6,9) [9,10)`. The restriction `k ≤ 10` is forced by the
counterexample: for `k ≥ 11` a path entry of 10 or more corrupts the joined
decimal string. -/
theorem c3_leaf_ranges_partition (n k : Nat) (hn : 2 ≤ n) (hk2 : 2 ≤ k)
    (hk10 : k ≤ 10) :
    (leafLayer n k).map (leafRange k n 0) =
      (List.range (chunkCount n k)).map
        (fun j => some (k * j, min (k * j + k) n))
    ∧ ((List.range (chunkCount n k)).map
        (fun j => List.range' (k * j) (min (k * j + k) n - k * j))).flatten =
      List.range n := by
  obtain ⟨r, hr1, hbound, hmax, hLL⟩ := leafLayer_repDigits n k hn hk2
  constructor
  · rw [hLL, List.map_map]
    apply List.map_congr_left
    intro t htm
    rw [List.mem_range] at htm
    simp only [Function.comp]
    apply leafRange_repDigits k n r t hk2 hk10 hr1
    have hle : k ^ (r - 1) ≤ k ^ r := Nat.pow_le_pow_right (by omega) (by omega)
    omega
  · rw [chunks_cover n k (by omega) (chunkCount n k)]
    congr 1
    have hcov : n ≤ k * chunkCount n k := by
      unfold chunkCount
      have hdm := Nat.div_add_mod (n + k - 1) k
      have hmod := Nat.mod_lt (n + k - 1) (show 0 < k by omega)
      omega
    omega

theorem c3_witness :
    2 ≤ 10 ∧ 2 ≤ 3 ∧ 3 ≤ 10 ∧
    (leafLayer 10 3).map (leafRange 3 10 0) =
      [some (0, 3), some (3, 6), some (6, 9), some (9, 10)] := by
  refine ⟨by decide, by decide, by decide, ?_⟩
  rw [(c3_leaf_ranges_partition 10 3 (by decide) (by decide) (by decide)).1]
  decide

/-- Claim C3, counterexample: for `n = 121`, `k = 11` (one tree) the
leaf-merge nodes are `(0,0) … (0,10)`; node `(0,10)` is converted via the
string `"010"` read in base 11, giving 11 instead of 10, so its range is the
empty `[121, 121)` and the leaves `110 … 120` are covered by no node — the
ranges do not partition `[0, 121)`. -/
theorem c3_counterexample_base_eleven :
    (leafLayer 121 11).map (leafRange 11 121 0) =
      [some (0, 11), some (11, 22), some (22, 33), some (33, 44),
       some (44, 55), some (55, 66), some (66, 77), some (77, 88),
       some (88, 99), some (99, 110), some (121, 121)]
    ∧ (110 : Nat) < 121
    ∧ ((leafLayer 121 11).map (leafRange 11 121 0)).countP
        (fun o => (o.getD (0, 0)).1 ≤ 110 && 110 < (o.getD (0, 0)).2) = 0 := by
  refine ⟨by decide, by decide, by decide⟩

/-- Claim C1, amended theorem: for every merge factor `k ≥ 2`, the tree built
for `n ≥ 2` leaves has exactly one depth-0 node (the node `(0,)`), but for
`n ≤ 1` the builder produces an empty tree with no nodes at any depth — in
particular `n = 1` does not yield a single-node tree. -/
theorem c1_depth_zero_layer (n k : Nat) (hk : 2 ≤ k) :
    (2 ≤ n → cascadeTreeLayer n k 0 = [[0]])
    ∧ (n ≤ 1 → ∀ d, cascadeTreeLayer n k d = []) := by
  constructor
  · intro hn
    obtain ⟨r, hr1, hlayer, hempty, hlen1, hbound⟩ := tree_structure n k hn hk
    obtain ⟨e, he⟩ := List.length_eq_one.mp hlen1
    obtain ⟨cs, rfl⟩ : ∃ cs, e = NestedLeaf.node cs := by
      have hshape := buildLoop_nodes k (n - 1)
        (cascadeStep k ((List.range n).map NestedLeaf.leaf))
        (cascadeStep_nodes k _)
      rw [← buildNested_unfold n k hn] at hshape
      apply hshape
      rw [he]
      simp
    unfold cascadeTreeLayer treePaths nodifyTop
    rw [he, nodifyFrom_cons, nodifyFrom_nil, List.append_nil, List.nil_append,
      nodify_node, List.filter_cons]
    have hrest : (nodifyFrom cs [0] 0).filter
        (fun p => decide (p.length - 1 = 0)) = [] := by
      apply List.filter_eq_nil_iff.mpr
      intro x hx
      rw [nodifyFrom_shift cs [0] 0, List.mem_map] at hx
      obtain ⟨s, hs, rfl⟩ := hx
      obtain ⟨h, t, rfl, _, _⟩ := nodifyFrom_head cs 0 s hs
      simp
    have hcond : (decide (([0] : List Nat).length - 1 = 0)) = true := by decide
    rw [hcond, if_pos rfl, hrest]
  · intro hn d
    interval_cases n
    · rfl
    · rfl

theorem c1_witness :
    2 ≤ 2 ∧ cascadeTreeLayer 2 2 0 = [[0]] :=
  ⟨by decide, (c1_depth_zero_layer 2 2 (by decide)).1 (by decide)⟩

/-- Claim C1, counterexample: for `n = 1` (merge factor 2) the builder
records no nodes at all — `nodify` skips raw leaf numbers and the single-leaf
list is never chunked — so the depth-0 layer is empty rather than containing
exactly one node consuming the sole leaf (the Python code would in fact crash
on `max(tree.keys())` over the empty tree). -/
theorem c1_counterexample_single_leaf :
    treePaths 1 2 = [] ∧ cascadeTreeLayer 1 2 0 = [] := by
  refine ⟨by decide, by decide⟩
